import Mathlib

/-!
Verification development for the tracelistener gaia processor.

The definitions below are a shallow embedding of
`tracelistener/gaia_processor/processor.go` and of the writeback batch
splitter exercised by `tracelistener/tables/balances_gen.go`'s tests.

Modelling conventions:
* Go channels are replaced by an explicit event trace: a send on the
  writeback channel becomes an `Event.writeback`, a `Process` invocation
  becomes an `Event.dispatch`, and a logged per-operation error becomes an
  `Event.procError`.
* A Go slice that the code compares against `nil` is modelled as
  `Option (List _)`: `processor.go` tests `entry.Data == nil`, which in Go
  is false for a non-nil empty slice, so the nil/empty distinction is
  semantically relevant.
* A module's internal cache is modelled as an abstract `Nat` state threaded
  through `flushCache` and `process`; the concrete module implementations
  are opaque behind the `Module` interface in the source as well.
* Machine integers (`uint64` heights, `int` limits) are modelled as `Nat`;
  the code only compares and assigns them, so no overflow is observable.
-/

namespace Tracelistener

/-- Operation kind of a trace record (read / write). -/
inductive Operation where
  | read
  | write
  deriving DecidableEq

/-- One decoded trace record, as consumed by the processor lifecycle. -/
structure TraceOperation where
  operation : Operation
  key : List Nat
  value : List Nat
  blockHeight : Nat
  metadata : Option (List Nat)
  deriving DecidableEq

/-- A database row; `withChainName` stamps the chain name onto it
(`models.DatabaseEntrier` in the source). -/
structure DatabaseEntrier where
  chainName : String
  payload : Nat
  deriving DecidableEq

/-- WithChainName returns the row with its chain name replaced. -/
def DatabaseEntrier.withChainName (r : DatabaseEntrier) (cn : String) : DatabaseEntrier :=
  { r with chainName := cn }

/-- A writeback batch: statement template plus rows. `data = none` models a
Go nil `Data` slice, `data = some []` a non-nil empty slice. -/
structure WritebackOp where
  databaseExec : String
  data : Option (List DatabaseEntrier)
  deriving DecidableEq

/-- The `Module` interface of `processor.go`, with the module's mutable
cache made explicit as a `Nat` state threaded through the two stateful
methods. `flushCache` returns its batches and the post-flush state;
`process` returns the post-dispatch state and an optional error. -/
structure Module where
  moduleName : String
  tableSchema : String
  ownsKey : List Nat → Bool
  flushCache : Nat → List WritebackOp × Nat
  process : Nat → TraceOperation → Nat × Option String
  st : Nat

/-- The `Processor` struct, restricted to the fields the lifecycle reads
or writes (logger, codec and the channel handles themselves are I/O
plumbing and are replaced by the event trace). -/
structure Processor where
  migrations : List String
  lastHeight : Nat
  chainName : String
  moduleProcessors : List Module

/-- Observable effects of one lifecycle iteration: a send on the writeback
channel, a `Process` invocation on a module, a logged `Process` error. -/
inductive Event where
  | writeback (wb : List WritebackOp)
  | dispatch (moduleName : String) (op : TraceOperation)
  | procError (moduleName : String) (op : TraceOperation) (err : String)
  deriving DecidableEq

/-- True exactly on writeback-channel sends. -/
def Event.isWriteback : Event → Bool
  | .writeback _ => true
  | _ => false

/-- True exactly on dispatch / process-error events carrying `op`. -/
def Event.isDispatchOf (op : TraceOperation) : Event → Bool
  | .writeback _ => false
  | .dispatch _ o => decide (o = op)
  | .procError _ o _ => decide (o = op)

/-- The module name of a dispatch event, `none` for the other events. -/
def Event.dispatchedModule : Event → Option String
  | .dispatch n _ => some n
  | _ => none

/-- Stamp every row of a batch with the chain name
(`entry.Data[i] = entry.Data[i].WithChainName(p.chainName)`). -/
def stampRows (cn : String) (e : WritebackOp) : WritebackOp :=
  { e with data := e.data.map (fun rows => rows.map (fun r => r.withChainName cn)) }

/-- The batches one module contributes to the aggregate during a flush:
its `FlushCache` result with nil-`Data` entries skipped and every kept
row stamped (the inner loop of `lifecycle`'s flush branch). -/
def Module.flushKept (cn : String) (m : Module) : List WritebackOp :=
  ((m.flushCache m.st).1.filter (fun e => e.data.isSome)).map (stampRows cn)

/-- The module after its cache has been flushed. -/
def Module.afterFlush (m : Module) : Module :=
  { m with st := (m.flushCache m.st).2 }

/-- The aggregate writeback list `wb` assembled by the flush branch of
`lifecycle`: per-module kept batches, concatenated in registry order. -/
def Processor.flushAggregate (p : Processor) : List WritebackOp :=
  (p.moduleProcessors.map (Module.flushKept p.chainName)).flatten

/-- The height-transition branch of `lifecycle`: when the incoming
operation's height differs from the watermark and is nonzero, flush every
module, send the aggregate on the writeback channel and advance the
watermark; otherwise do nothing. -/
def Processor.flushPhase (p : Processor) (data : TraceOperation) :
    Processor × List Event :=
  if data.blockHeight ≠ p.lastHeight ∧ data.blockHeight ≠ 0 then
    ({ p with
        moduleProcessors := p.moduleProcessors.map Module.afterFlush,
        lastHeight := data.blockHeight },
     [Event.writeback p.flushAggregate])
  else (p, [])

/-- One iteration of the dispatch loop body for one module: skip it unless
`OwnsKey` holds, otherwise invoke `Process` and log a failure. -/
def dispatchOne (data : TraceOperation) (m : Module) : Module × List Event :=
  if m.ownsKey data.key then
    match m.process m.st data with
    | (st2, some e) =>
        ({ m with st := st2 },
         [Event.dispatch m.moduleName data, Event.procError m.moduleName data e])
    | (st2, none) => ({ m with st := st2 }, [Event.dispatch m.moduleName data])
  else (m, [])

/-- Events of the dispatch loop over a module list, in registry order. -/
def dispatchEvents (data : TraceOperation) (mods : List Module) : List Event :=
  (mods.map (fun m => (dispatchOne data m).2)).flatten

/-- The dispatch loop of `lifecycle`: route the operation to every owning
module in registry order. -/
def Processor.dispatchPhase (p : Processor) (data : TraceOperation) :
    Processor × List Event :=
  ({ p with moduleProcessors := p.moduleProcessors.map (fun m => (dispatchOne data m).1) },
   dispatchEvents data p.moduleProcessors)

/-- One full iteration of `lifecycle` for one incoming operation:
the height-transition flush (if any) followed by dispatch. -/
def Processor.lifecycleStep (p : Processor) (data : TraceOperation) :
    Processor × List Event :=
  (((p.flushPhase data).1.dispatchPhase data).1,
   (p.flushPhase data).2 ++ ((p.flushPhase data).1.dispatchPhase data).2)

/-- The lifecycle loop over a finite prefix of the operation stream. -/
def Processor.run (p : Processor) : List TraceOperation → Processor × List Event
  | [] => (p, [])
  | op :: rest =>
    ((((p.lifecycleStep op).1.run rest)).1,
     (p.lifecycleStep op).2 ++ ((p.lifecycleStep op).1.run rest).2)

/-- `AddModule` from `processor.go`: reject a duplicate module name with an
error and leave the registry untouched, otherwise append the module. -/
def Processor.addModule (p : Processor) (m : Module) : Processor × Option String :=
  if p.moduleProcessors.any (fun em => em.moduleName == m.moduleName) then
    (p, some ("cannot add module " ++ m.moduleName ++ " more than one time"))
  else
    ({ p with moduleProcessors := p.moduleProcessors ++ [m] }, none)

/-- The default enabled-module list hardcoded in `New`. -/
def defaultProcessorsEnabled : List String := ["bank", "delegations", "auth"]

/-- Modelled from the spec: the concrete module implementations
(`bankProcessor`, `delegationsProcessor`, ...) and their `ModuleName` /
`TableSchema` methods are not part of the sources at hand; only the
dispatch switch of `processorByName` is. Each module carries its unique
name and, per the spec, exactly one create-table-if-not-present statement;
its behavioural methods are outside the registry-construction claims. -/
def mkModule (name schema : String) : Module :=
  { moduleName := name
    tableSchema := schema
    ownsKey := fun _ => false
    flushCache := fun s => ([], s)
    process := fun s _ => (s, none)
    st := 0 }

/-- `processorByName` from `processor.go`: map an enabled-module name to a
freshly constructed module (empty cache), or fail on an unknown name.
Modelled from the spec: the name strings of the non-default modules follow
the spec's module list, since the `ModuleName` method bodies are not part
of the sources at hand. -/
def processorByName (name : String) : Option Module :=
  if name = "bank" then
    some (mkModule "bank" "CREATE TABLE IF NOT EXISTS balances")
  else if name = "ibc_connections" then
    some (mkModule "ibc_connections" "CREATE TABLE IF NOT EXISTS connections")
  else if name = "liquidity_pools" then
    some (mkModule "liquidity_pools" "CREATE TABLE IF NOT EXISTS liquidity_pools")
  else if name = "liquidity_swaps" then
    some (mkModule "liquidity_swaps" "CREATE TABLE IF NOT EXISTS liquidity_swaps")
  else if name = "delegations" then
    some (mkModule "delegations" "CREATE TABLE IF NOT EXISTS delegations")
  else if name = "ibc_denom_traces" then
    some (mkModule "ibc_denom_traces" "CREATE TABLE IF NOT EXISTS denom_traces")
  else if name = "ibc_channels" then
    some (mkModule "ibc_channels" "CREATE TABLE IF NOT EXISTS channels")
  else if name = "auth" then
    some (mkModule "auth" "CREATE TABLE IF NOT EXISTS auth")
  else none

/-- Gaia section of the configuration: the enabled-module name list;
`none` models the absent (`nil`) list. -/
structure GaiaConfig where
  processorsEnabled : Option (List String)

/-- The configuration surface consumed by `New`. -/
structure Config where
  chainName : String
  gaia : GaiaConfig

/-- The registry-construction loop of `New`: look every enabled name up,
failing on the first unknown one. -/
def buildProcessors : List String → Except String (List Module)
  | [] => Except.ok []
  | n :: rest =>
    match processorByName n with
    | none => Except.error ("unkonwn Processor " ++ n)
    | some m =>
      match buildProcessors rest with
      | Except.error e => Except.error e
      | Except.ok ms => Except.ok (m :: ms)

/-- `New` from `processor.go`: default the enabled list when absent, build
the registry, collect one table schema per module (in loop order) as the
migrations list, and return the processor; I/O plumbing (logger, codec,
channel allocation, goroutine start) is dropped. -/
def New (cfg : Config) : Except String Processor :=
  match buildProcessors (cfg.gaia.processorsEnabled.getD defaultProcessorsEnabled) with
  | Except.error e => Except.error e
  | Except.ok mp =>
    Except.ok
      { chainName := cfg.chainName
        lastHeight := 0
        migrations := mp.map Module.tableSchema
        moduleProcessors := mp }

/-- Fuel-driven chunking worker; the fuel, at least the list length at
every call, makes the recursion structural (and hence kernel-evaluable).
The degenerate size 0 is treated as size 1 and is never reached from the
splitter. -/
def chunksFuel : Nat → Nat → List α → List (List α)
  | _, _, [] => []
  | 0, _, x :: rest => [x :: rest]
  | fuel + 1, n, x :: rest =>
    (x :: rest).take (max n 1) :: chunksFuel fuel n ((x :: rest).drop (max n 1))

/-- Consecutive groups of `n` elements (final group may be shorter). -/
def chunks (n : Nat) (xs : List α) : List (List α) :=
  chunksFuel xs.length n xs

/-- Modelled from the spec: `WritebackOp.SplitStatements` is not part of
the sources at hand (only its test, `TestWritebackOp_SplitStatements`,
is); modelled from the spec's splitter algorithm. `fieldsAmount` is the
fixed per-row bound-parameter arity; the Go panic on `fieldsAmount >
limit` is modelled as `none`. -/
def WritebackOp.splitStatements (wb : WritebackOp) (fieldsAmount limit : Nat) :
    Option (List WritebackOp) :=
  if limit < fieldsAmount then none
  else if limit % fieldsAmount = 0 then
    some ((chunks (limit / fieldsAmount) (wb.data.getD [])).map
      (fun c => { wb with data := some c }))
  else
    some ((wb.data.getD []).map (fun r => { wb with data := some [r] }))

theorem chunksFuel_nil (fuel n : Nat) : chunksFuel fuel n ([] : List α) = [] := by
  cases fuel <;> rfl

theorem chunksFuel_irrel (f1 : Nat) :
    ∀ (f2 n : Nat) (xs : List α), xs.length ≤ f1 → xs.length ≤ f2 →
      chunksFuel f1 n xs = chunksFuel f2 n xs := by
  induction f1 with
  | zero =>
    intro f2 n xs h1 h2
    have hx : xs = [] := List.eq_nil_of_length_eq_zero (by omega)
    subst hx
    rw [chunksFuel_nil, chunksFuel_nil]
  | succ f1 ih =>
    intro f2 n xs h1 h2
    match xs with
    | [] => rw [chunksFuel_nil, chunksFuel_nil]
    | x :: rest =>
      have hf2 : ∃ f2p, f2 = f2p + 1 := by
        rcases f2 with _ | f2p
        · simp at h2
        · exact ⟨f2p, rfl⟩
      rcases hf2 with ⟨f2p, rfl⟩
      show (x :: rest).take (max n 1) :: chunksFuel f1 n ((x :: rest).drop (max n 1)) =
        (x :: rest).take (max n 1) :: chunksFuel f2p n ((x :: rest).drop (max n 1))
      have hd : ((x :: rest).drop (max n 1)).length ≤ rest.length := by
        rw [List.length_drop]
        have := Nat.le_max_right n 1
        simp only [List.length_cons]
        omega
      rw [ih f2p n _ (by simp only [List.length_cons] at h1; omega)
        (by simp only [List.length_cons] at h2; omega)]

theorem chunks_nil (n : Nat) : chunks n ([] : List α) = [] := rfl

theorem chunks_cons (n : Nat) (x : α) (rest : List α) :
    chunks n (x :: rest) =
      (x :: rest).take (max n 1) :: chunks n ((x :: rest).drop (max n 1)) := by
  show chunksFuel (x :: rest).length n (x :: rest) = _
  simp only [List.length_cons]
  show (x :: rest).take (max n 1) :: chunksFuel rest.length n ((x :: rest).drop (max n 1)) =
    (x :: rest).take (max n 1) :: chunks n ((x :: rest).drop (max n 1))
  unfold chunks
  rw [chunksFuel_irrel rest.length _ n _
    (by rw [List.length_drop]; have := Nat.le_max_right n 1; simp only [List.length_cons]; omega)
    (le_refl _)]

theorem drop_max_length_le (n L1 : Nat) (x : α) (rest : List α)
    (h : (x :: rest).length ≤ L1 + 1) :
    ((x :: rest).drop (max n 1)).length ≤ L1 := by
  rw [List.length_drop]
  have h1 := Nat.le_max_right n 1
  simp only [List.length_cons] at h ⊢
  omega

theorem chunks_flatten (n : Nat) (xs : List α) : (chunks n xs).flatten = xs := by
  have H : ∀ (L : Nat) (ys : List α), ys.length ≤ L → (chunks n ys).flatten = ys := by
    intro L
    induction L with
    | zero =>
      intro ys h
      have hx : ys = [] := List.eq_nil_of_length_eq_zero (by omega)
      subst hx
      rw [chunks_nil]
      rfl
    | succ L ih =>
      intro ys h
      match ys with
      | [] =>
        rw [chunks_nil]
        rfl
      | x :: rest =>
        have hlen := drop_max_length_le n L x rest h
        rw [chunks_cons, List.flatten_cons, ih _ hlen, List.take_append_drop]
  exact H xs.length xs (Nat.le_refl _)

theorem ceil_div_aux (k L : Nat) (hk : 0 < k) (hL : 0 < L) :
    (L + k - 1) / k = (L - k + k - 1) / k + 1 := by
  rcases Nat.lt_or_ge L k with hlt | hle
  · have h1 : (L - k + k - 1) / k = 0 := by
      have h0 : L - k = 0 := by omega
      rw [h0, Nat.zero_add]
      exact Nat.div_eq_of_lt (by omega)
    have h2 : L + k - 1 = (L - 1) + k := by omega
    rw [h1, h2, Nat.add_div_right _ hk, Nat.div_eq_of_lt (by omega)]
  · have h2 : L + k - 1 = (L - k + k - 1) + k := by omega
    rw [h2, Nat.add_div_right _ hk]

theorem chunks_length (n : Nat) (xs : List α) (hn : 0 < n) :
    (chunks n xs).length = (xs.length + n - 1) / n := by
  have hmax : max n 1 = n := Nat.max_eq_left hn
  have H : ∀ (L : Nat) (xs : List α), xs.length ≤ L →
      (chunks n xs).length = (xs.length + n - 1) / n := by
    intro L
    induction L with
    | zero =>
      intro xs h
      have hx : xs = [] := List.eq_nil_of_length_eq_zero (by omega)
      subst hx
      rw [chunks_nil]
      rw [List.length_nil, List.length_nil, Nat.zero_add,
        Nat.div_eq_of_lt (by omega)]
    | succ L ih =>
      intro xs h
      match xs with
      | [] =>
        rw [chunks_nil]
        rw [List.length_nil, List.length_nil, Nat.zero_add,
          Nat.div_eq_of_lt (by omega)]
      | x :: rest =>
        have hlen : ((x :: rest).drop (max n 1)).length ≤ L :=
          drop_max_length_le n L x rest h
        rw [chunks_cons, hmax, List.length_cons, ih _ (by rw [hmax] at hlen; exact hlen)]
        simp only [List.length_drop, List.length_cons]
        exact (ceil_div_aux n (rest.length + 1) hn (by omega)).symm
  exact H xs.length xs (Nat.le_refl _)

theorem chunks_mem_length (n : Nat) (xs : List α) (c : List α)
    (hn : 0 < n) (hc : c ∈ chunks n xs) : 0 < c.length ∧ c.length ≤ n := by
  have hmax : max n 1 = n := Nat.max_eq_left hn
  have H : ∀ (L : Nat) (xs : List α), xs.length ≤ L → c ∈ chunks n xs →
      0 < c.length ∧ c.length ≤ n := by
    intro L
    induction L with
    | zero =>
      intro xs h hc
      have hx : xs = [] := List.eq_nil_of_length_eq_zero (by omega)
      subst hx
      rw [chunks_nil] at hc
      simp at hc
    | succ L ih =>
      intro xs h hc
      match xs with
      | [] =>
        rw [chunks_nil] at hc
        simp at hc
      | x :: rest =>
        rw [chunks_cons, hmax] at hc
        rcases List.mem_cons.1 hc with h1 | h1
        · subst h1
          constructor
          · simp only [List.length_take, List.length_cons]
            omega
          · have h2 := List.length_take_le n (x :: rest)
            omega
        · have hlen : ((x :: rest).drop (max n 1)).length ≤ L :=
            drop_max_length_le n L x rest h
          rw [hmax] at hlen
          exact ih _ hlen h1
  exact H xs.length xs (Nat.le_refl _) hc

theorem flatten_map_singleton (xs : List α) :
    (xs.map (fun x => [x])).flatten = xs := by
  induction xs with
  | nil => rfl
  | cons x rest ih => simp [ih]

theorem mem_dispatchOne_snd (data : TraceOperation) (m : Module) (e : Event)
    (he : e ∈ (dispatchOne data m).2) : e.isDispatchOf data = true := by
  rcases hk : m.ownsKey data.key with _ | _ <;>
    rcases hp : m.process m.st data with ⟨st2, oe⟩ <;> rcases oe with _ | err <;>
    simp [dispatchOne, hk, hp] at he <;>
    first
      | (rcases he with h | h <;> subst h <;> simp [Event.isDispatchOf])
      | (subst he; simp [Event.isDispatchOf])

theorem dispatchEvents_nil (data : TraceOperation) :
    dispatchEvents data [] = [] := rfl

theorem dispatchEvents_cons (data : TraceOperation) (m : Module) (mods : List Module) :
    dispatchEvents data (m :: mods) =
      (dispatchOne data m).2 ++ dispatchEvents data mods := by
  simp [dispatchEvents]

theorem mem_dispatchEvents (data : TraceOperation) (mods : List Module) (e : Event)
    (he : e ∈ dispatchEvents data mods) : e.isDispatchOf data = true := by
  induction mods with
  | nil => simp [dispatchEvents_nil] at he
  | cons m mods ih =>
    rw [dispatchEvents_cons] at he
    rcases List.mem_append.1 he with h | h
    · exact mem_dispatchOne_snd data m e h
    · exact ih h

theorem writeback_not_mem_dispatchEvents (data : TraceOperation) (mods : List Module)
    (wb : List WritebackOp) : Event.writeback wb ∉ dispatchEvents data mods := by
  intro h
  have := mem_dispatchEvents data mods _ h
  simp [Event.isDispatchOf] at this

theorem countP_isWriteback_dispatchEvents (data : TraceOperation) (mods : List Module) :
    (dispatchEvents data mods).countP Event.isWriteback = 0 := by
  rw [List.countP_eq_zero]
  intro e he
  have := mem_dispatchEvents data mods e he
  cases e <;> simp_all [Event.isDispatchOf, Event.isWriteback]

theorem filterMap_dispatchedModule_dispatchOne (data : TraceOperation) (m : Module) :
    ((dispatchOne data m).2).filterMap Event.dispatchedModule =
      if m.ownsKey data.key then [m.moduleName] else [] := by
  rcases hk : m.ownsKey data.key with _ | _ <;>
    rcases hp : m.process m.st data with ⟨st2, oe⟩ <;> rcases oe with _ | err <;>
    simp [dispatchOne, hk, hp, Event.dispatchedModule]

theorem filterMap_dispatchedModule_dispatchEvents (data : TraceOperation)
    (mods : List Module) :
    (dispatchEvents data mods).filterMap Event.dispatchedModule =
      (mods.filter (fun m => m.ownsKey data.key)).map Module.moduleName := by
  induction mods with
  | nil => simp [dispatchEvents_nil]
  | cons m mods ih =>
    rw [dispatchEvents_cons, List.filterMap_append, ih,
      filterMap_dispatchedModule_dispatchOne]
    rcases hk : m.ownsKey data.key with _ | _ <;> simp [List.filter_cons, hk]

theorem dispatch_mem_dispatchEvents (data : TraceOperation) (mods : List Module)
    (m : Module) (hm : m ∈ mods) (hk : m.ownsKey data.key = true) :
    Event.dispatch m.moduleName data ∈ dispatchEvents data mods := by
  induction mods with
  | nil => simp at hm
  | cons m0 mods ih =>
    rw [dispatchEvents_cons]
    rcases List.mem_cons.1 hm with h | h
    · subst h
      apply List.mem_append_left
      rcases hp : m.process m.st data with ⟨st2, oe⟩ <;> rcases oe with _ | err <;>
        simp [dispatchOne, hk, hp]
    · exact List.mem_append_right _ (ih h)

theorem procError_mem_dispatchEvents (data : TraceOperation) (mods : List Module)
    (m : Module) (err : String) (hm : m ∈ mods) (hk : m.ownsKey data.key = true)
    (herr : (m.process m.st data).2 = some err) :
    Event.procError m.moduleName data err ∈ dispatchEvents data mods := by
  induction mods with
  | nil => simp at hm
  | cons m0 mods ih =>
    rw [dispatchEvents_cons]
    rcases List.mem_cons.1 hm with h | h
    · subst h
      apply List.mem_append_left
      rcases hp : m.process m.st data with ⟨st2, oe⟩
      rw [hp] at herr
      simp only at herr
      subst herr
      simp [dispatchOne, hk, hp]
    · exact List.mem_append_right _ (ih h)

theorem mem_flushAggregate (p : Processor) (e : WritebackOp) :
    e ∈ p.flushAggregate ↔
      ∃ m, m ∈ p.moduleProcessors ∧ ∃ e0, e0 ∈ (m.flushCache m.st).1 ∧
        e0.data.isSome = true ∧ stampRows p.chainName e0 = e := by
  simp only [Processor.flushAggregate, List.mem_flatten, List.mem_map,
    Module.flushKept, List.mem_filter]
  constructor
  · rintro ⟨l, ⟨m, hm, rfl⟩, he⟩
    rcases List.mem_map.1 he with ⟨e0, h0, rfl⟩
    exact ⟨m, hm, e0, (List.mem_filter.1 h0).1, (List.mem_filter.1 h0).2, rfl⟩
  · rintro ⟨m, hm, e0, h0, hs, rfl⟩
    exact ⟨_, ⟨m, hm, rfl⟩, List.mem_map.2 ⟨e0, List.mem_filter.2 ⟨h0, hs⟩, rfl⟩⟩

theorem writeback_mem_lifecycleStep (p : Processor) (data : TraceOperation)
    (wb : List WritebackOp)
    (hwb : Event.writeback wb ∈ (p.lifecycleStep data).2) :
    wb = p.flushAggregate := by
  unfold Processor.lifecycleStep at hwb
  rcases List.mem_append.1 hwb with h | h
  · unfold Processor.flushPhase at h
    by_cases hc : data.blockHeight ≠ p.lastHeight ∧ data.blockHeight ≠ 0
    · rw [if_pos hc] at h
      simp at h
      exact h
    · rw [if_neg hc] at h
      simp at h
  · exact absurd h (writeback_not_mem_dispatchEvents data _ wb)

/-- A concrete write operation at the given height, for concrete runs. -/
def opW (h : Nat) : TraceOperation :=
  { operation := Operation.write, key := [1], value := [2], blockHeight := h,
    metadata := none }

/-- A processor with the given chain name and registry and a fresh
watermark, for concrete runs. -/
def pBase (cn : String) (mods : List Module) : Processor :=
  { migrations := [], lastHeight := 0, chainName := cn, moduleProcessors := mods }

/-- A module owning every key whose flush yields one one-row batch. -/
def modOwnAll : Module :=
  { moduleName := "own", tableSchema := "t"
    ownsKey := fun _ => true
    flushCache := fun s =>
      ([{ databaseExec := "ins", data := some [{ chainName := "orig", payload := 7 }] }], s + 1)
    process := fun s _ => (s + 1, none)
    st := 0 }

/-- A module whose flush yields a batch with a non-nil empty row slice. -/
def modEmptyFlush : Module :=
  { moduleName := "emptyflush", tableSchema := "t"
    ownsKey := fun _ => false
    flushCache := fun s => ([{ databaseExec := "x", data := some [] }], s)
    process := fun s _ => (s, none)
    st := 0 }

/-- A module whose flush yields only a batch with nil row data. -/
def modNilFlush : Module :=
  { moduleName := "nilflush", tableSchema := "t"
    ownsKey := fun _ => false
    flushCache := fun s => ([{ databaseExec := "n", data := none }], s)
    process := fun s _ => (s, none)
    st := 0 }

/-- A module owning every key whose process always fails. -/
def modErrProc : Module :=
  { moduleName := "errmod", tableSchema := "t"
    ownsKey := fun _ => true
    flushCache := fun s => ([], s)
    process := fun s _ => (s, some "boom")
    st := 0 }

/-- Processor with no modules. -/
def pEmpty : Processor := pBase "chain" []

/-- Processor with the all-owning module. -/
def pOwn : Processor := pBase "chainA" [modOwnAll]

/-- Processor with the empty-but-non-nil flushing module. -/
def pEmptyFlush : Processor := pBase "chainB" [modEmptyFlush]

/-- Processor with the nil-flushing module. -/
def pNilFlush : Processor := pBase "chainC" [modNilFlush]

/-- Processor with the erroring module. -/
def pErr : Processor := pBase "chainE" [modErrProc]

/-- C1: on a height transition (incoming nonzero height different from the
watermark) the aggregate flush batch, assembled from every registered
module in registry order, is published on the writeback queue strictly
before the triggering operation is dispatched to any module: the step's
event trace is the writeback send followed only by dispatch events for
that operation. -/
theorem C1_flush_published_before_dispatch (p : Processor) (data : TraceOperation)
    (h : data.blockHeight ≠ p.lastHeight ∧ data.blockHeight ≠ 0) :
    ∃ tl, (p.lifecycleStep data).2 = Event.writeback p.flushAggregate :: tl ∧
      ∀ e ∈ tl, e.isDispatchOf data = true := by
  unfold Processor.lifecycleStep Processor.dispatchPhase Processor.flushPhase
  simp only [if_pos h, List.singleton_append]
  exact ⟨_, rfl, fun e he => mem_dispatchEvents _ _ e he⟩

/-- Witness for C1 at a concrete processor and operation. -/
theorem C1_flush_published_before_dispatch_witness :
    ∃ tl, (pOwn.lifecycleStep (opW 1)).2 =
        Event.writeback pOwn.flushAggregate :: tl ∧
      ∀ e ∈ tl, e.isDispatchOf (opW 1) = true :=
  C1_flush_published_before_dispatch pOwn (opW 1) (by decide)

/-- C3 (amended): after one lifecycle iteration the watermark equals the
incoming operation's height whenever that height is nonzero and differs
from the current watermark, and is unchanged otherwise; the new value is
not required to exceed the old one. -/
theorem C3_watermark_follows_height (p : Processor) (data : TraceOperation) :
    (p.lifecycleStep data).1.lastHeight =
      if data.blockHeight ≠ p.lastHeight ∧ data.blockHeight ≠ 0 then
        data.blockHeight
      else p.lastHeight := by
  unfold Processor.lifecycleStep Processor.dispatchPhase Processor.flushPhase
  by_cases hc : data.blockHeight ≠ p.lastHeight ∧ data.blockHeight ≠ 0 <;>
    simp [hc]

/-- Counterexample to C3 as stated: feeding heights 5 then 3 makes the
watermark decrease from 5 to 3, so `lastHeight` is not monotone. -/
theorem C3_counterexample :
    (pEmpty.lifecycleStep (opW 5)).1.lastHeight = 5 ∧
    ((pEmpty.lifecycleStep (opW 5)).1.lifecycleStep (opW 3)).1.lastHeight = 3 ∧
    ((pEmpty.lifecycleStep (opW 5)).1.lifecycleStep (opW 3)).1.lastHeight <
      (pEmpty.lifecycleStep (opW 5)).1.lastHeight := by
  refine ⟨rfl, rfl, ?_⟩
  decide

/-- C6: an operation whose height is 0 or equals the watermark triggers no
flush: the watermark is unchanged, nothing is published on the writeback
queue, and the operation is dispatched to exactly the modules owning its
key, in registry order. -/
theorem C6_idle_dispatch (p : Processor) (data : TraceOperation)
    (h : data.blockHeight = 0 ∨ data.blockHeight = p.lastHeight) :
    (p.lifecycleStep data).1.lastHeight = p.lastHeight ∧
    (∀ wb, Event.writeback wb ∉ (p.lifecycleStep data).2) ∧
    (p.lifecycleStep data).2.filterMap Event.dispatchedModule =
      (p.moduleProcessors.filter (fun m => m.ownsKey data.key)).map
        Module.moduleName := by
  have hc : ¬(data.blockHeight ≠ p.lastHeight ∧ data.blockHeight ≠ 0) := by
    rcases h with h | h <;> simp [h]
  unfold Processor.lifecycleStep Processor.dispatchPhase Processor.flushPhase
  simp only [if_neg hc, List.nil_append]
  exact ⟨trivial, fun wb hwb => writeback_not_mem_dispatchEvents data _ wb hwb,
    filterMap_dispatchedModule_dispatchEvents data _⟩

/-- Witness for C6 at a concrete processor and a height-0 operation. -/
theorem C6_idle_dispatch_witness :
    (pOwn.lifecycleStep (opW 0)).1.lastHeight = pOwn.lastHeight ∧
    (∀ wb, Event.writeback wb ∉ (pOwn.lifecycleStep (opW 0)).2) ∧
    (pOwn.lifecycleStep (opW 0)).2.filterMap Event.dispatchedModule =
      (pOwn.moduleProcessors.filter (fun m => m.ownsKey (opW 0).key)).map
        Module.moduleName :=
  C6_idle_dispatch pOwn (opW 0) (Or.inl rfl)

/-- C10: every height transition publishes exactly one aggregate batch on
the writeback queue, even when the aggregate is empty. -/
theorem C10_exactly_one_writeback (p : Processor) (data : TraceOperation)
    (h : data.blockHeight ≠ p.lastHeight ∧ data.blockHeight ≠ 0) :
    ((p.lifecycleStep data).2.countP Event.isWriteback) = 1 ∧
    Event.writeback p.flushAggregate ∈ (p.lifecycleStep data).2 := by
  unfold Processor.lifecycleStep Processor.dispatchPhase Processor.flushPhase
  simp only [if_pos h]
  constructor
  · rw [List.countP_append, countP_isWriteback_dispatchEvents]
    rfl
  · exact List.mem_append_left _ (List.mem_singleton.2 rfl)

/-- Witness for C10: the nil-flushing module makes the aggregate empty,
and the empty aggregate is still published exactly once. -/
theorem C10_exactly_one_writeback_witness :
    pNilFlush.flushAggregate = [] ∧
    (((pNilFlush.lifecycleStep (opW 2)).2.countP Event.isWriteback) = 1 ∧
      Event.writeback pNilFlush.flushAggregate ∈
        (pNilFlush.lifecycleStep (opW 2)).2) :=
  ⟨by decide, C10_exactly_one_writeback pNilFlush (opW 2) (by decide)⟩

/-- C4 (amended): during a flush, a batch appears in the published
aggregate exactly when it is the chain-name-stamped image of a module
`FlushCache` entry whose row slice is non-nil; nil-`Data` entries are
dropped, but an entry with a non-nil empty row slice is kept (and then
contributes a zero-row batch to the aggregate). -/
theorem C4_kept_iff_nonnil (p : Processor) (e : WritebackOp) :
    (e ∈ p.flushAggregate ↔
      ∃ m, m ∈ p.moduleProcessors ∧ ∃ e0, e0 ∈ (m.flushCache m.st).1 ∧
        e0.data.isSome = true ∧ stampRows p.chainName e0 = e) ∧
    (e ∈ p.flushAggregate → e.data.isSome = true) := by
  refine ⟨mem_flushAggregate p e, fun he => ?_⟩
  rcases (mem_flushAggregate p e).1 he with ⟨m, hm, e0, h0, hs, rfl⟩
  unfold stampRows
  simpa using hs

/-- Witness for C4 (amended): the empty-but-non-nil batch of
`modEmptyFlush` is in the published aggregate and has non-nil data. -/
theorem C4_kept_iff_nonnil_witness :
    WritebackOp.data { databaseExec := "x", data := some [] } = some [] ∧
    (WritebackOp.data { databaseExec := "x", data := some [] }).isSome = true :=
  ⟨rfl,
    (C4_kept_iff_nonnil pEmptyFlush { databaseExec := "x", data := some [] }).2
      (by decide)⟩

/-- Counterexample to C4 as stated: with a module whose flush returns a
batch with a non-nil empty row slice, the height transition publishes an
aggregate containing that zero-row batch, so empty batches do appear in
the published aggregate. -/
theorem C4_counterexample :
    (pEmptyFlush.lifecycleStep (opW 1)).2 =
      [Event.writeback [{ databaseExec := "x", data := some [] }]] ∧
    ({ databaseExec := "x", data := some [] } : WritebackOp).data.getD [] = [] := by
  refine ⟨?_, rfl⟩
  decide

/-- C5: every row of every batch published on the writeback queue is
stamped with the processor's configured chain name. -/
theorem C5_rows_stamped (p : Processor) (data : TraceOperation)
    (wb : List WritebackOp) (e : WritebackOp) (rows : List DatabaseEntrier)
    (r : DatabaseEntrier)
    (hwb : Event.writeback wb ∈ (p.lifecycleStep data).2)
    (he : e ∈ wb) (hd : e.data = some rows) (hr : r ∈ rows) :
    r.chainName = p.chainName := by
  have hagg := writeback_mem_lifecycleStep p data wb hwb
  subst hagg
  rcases (mem_flushAggregate p e).1 he with ⟨m, hm, e0, h0, hs, rfl⟩
  simp only [stampRows] at hd
  rcases he0 : e0.data with _ | rows0
  · rw [he0] at hd
    simp at hd
  · rw [he0] at hd
    simp only [Option.map_some'] at hd
    have hre : rows = rows0.map (fun r0 => r0.withChainName p.chainName) := by
      injection hd with hd2
      exact hd2.symm
    subst hre
    rcases List.mem_map.1 hr with ⟨r0, _, rfl⟩
    rfl

/-- Witness for C5 at a concrete transition: the published row carries
the processor's chain name. -/
theorem C5_rows_stamped_witness :
    DatabaseEntrier.chainName { chainName := "chainA", payload := 7 } =
      pOwn.chainName :=
  C5_rows_stamped pOwn (opW 1)
    [{ databaseExec := "ins", data := some [{ chainName := "chainA", payload := 7 }] }]
    { databaseExec := "ins", data := some [{ chainName := "chainA", payload := 7 }] }
    [{ chainName := "chainA", payload := 7 }]
    { chainName := "chainA", payload := 7 }
    (by decide) (by decide) rfl (by decide)

/-- C8: a failing `Process` call is logged as a process-error event with
the module name and the operation, and dispatch still reaches every
owning module of that operation. -/
theorem C8_process_error_nonfatal (p : Processor) (data : TraceOperation)
    (m : Module) (err : String)
    (hm : m ∈ (p.flushPhase data).1.moduleProcessors)
    (hk : m.ownsKey data.key = true)
    (herr : (m.process m.st data).2 = some err) :
    Event.procError m.moduleName data err ∈ (p.lifecycleStep data).2 ∧
    ∀ m2 ∈ (p.flushPhase data).1.moduleProcessors, m2.ownsKey data.key = true →
      Event.dispatch m2.moduleName data ∈ (p.lifecycleStep data).2 := by
  constructor
  · unfold Processor.lifecycleStep Processor.dispatchPhase
    exact List.mem_append_right _
      (procError_mem_dispatchEvents data _ m err hm hk herr)
  · intro m2 hm2 hk2
    unfold Processor.lifecycleStep Processor.dispatchPhase
    exact List.mem_append_right _
      (dispatch_mem_dispatchEvents data _ m2 hm2 hk2)

/-- Witness for C8 at a concrete processor whose module always fails. -/
theorem C8_process_error_nonfatal_witness :
    Event.procError modErrProc.moduleName (opW 0) "boom" ∈
      (pErr.lifecycleStep (opW 0)).2 ∧
    ∀ m2 ∈ (pErr.flushPhase (opW 0)).1.moduleProcessors,
      m2.ownsKey (opW 0).key = true →
        Event.dispatch m2.moduleName (opW 0) ∈ (pErr.lifecycleStep (opW 0)).2 :=
  C8_process_error_nonfatal pErr (opW 0) modErrProc "boom"
    (List.mem_singleton.2 rfl) rfl rfl

theorem buildProcessors_ok (names : List String)
    (h : ∀ n ∈ names, (processorByName n).isSome = true) :
    buildProcessors names = Except.ok (names.filterMap processorByName) := by
  induction names with
  | nil => rfl
  | cons n rest ih =>
    have hn := h n (List.mem_cons_self n rest)
    rcases ho : processorByName n with _ | m
    · rw [ho] at hn
      simp at hn
    · rw [buildProcessors, ho,
        ih (fun x hx => h x (List.mem_cons_of_mem _ hx)),
        List.filterMap_cons, ho]

theorem buildProcessors_err (names : List String)
    (h : ∃ n, n ∈ names ∧ processorByName n = none) :
    ∃ msg, buildProcessors names = Except.error msg := by
  induction names with
  | nil =>
    rcases h with ⟨n, hn, _⟩
    simp at hn
  | cons n rest ih =>
    rcases ho : processorByName n with _ | m
    · exact ⟨_, by rw [buildProcessors, ho]⟩
    · rcases h with ⟨n0, hn0, h0⟩
      rcases List.mem_cons.1 hn0 with h1 | hmem
      · subst h1
        rw [ho] at h0
        cases h0
      · rcases ih ⟨n0, hmem, h0⟩ with ⟨msg, hmsg⟩
        exact ⟨msg, by rw [buildProcessors, ho, hmsg]⟩

theorem length_filterMap_processorByName (names : List String)
    (h : ∀ n ∈ names, (processorByName n).isSome = true) :
    (names.filterMap processorByName).length = names.length := by
  induction names with
  | nil => rfl
  | cons n rest ih =>
    have hn := h n (List.mem_cons_self n rest)
    rcases ho : processorByName n with _ | m
    · rw [ho] at hn
      simp at hn
    · rw [List.filterMap_cons, ho]
      simp [ih (fun x hx => h x (List.mem_cons_of_mem _ hx))]

/-- C7: adding a module whose name is already registered fails with an
error and leaves the registry unchanged; otherwise the module is appended
to the registry and no error is returned. -/
theorem C7_addModule (p : Processor) (m : Module) :
    ((∃ em, em ∈ p.moduleProcessors ∧ em.moduleName = m.moduleName) →
      (p.addModule m).1 = p ∧ (p.addModule m).2.isSome = true) ∧
    ((∀ em ∈ p.moduleProcessors, em.moduleName ≠ m.moduleName) →
      p.addModule m =
        ({ p with moduleProcessors := p.moduleProcessors ++ [m] }, none)) := by
  constructor
  · intro hex
    have hany : p.moduleProcessors.any
        (fun em => em.moduleName == m.moduleName) = true := by
      rcases hex with ⟨em, hmem, hname⟩
      exact List.any_eq_true.2 ⟨em, hmem, by simp [hname]⟩
    simp [Processor.addModule, hany]
  · intro hall
    have hany : p.moduleProcessors.any
        (fun em => em.moduleName == m.moduleName) = false := by
      rw [List.any_eq_false]
      intro em hmem
      simp [hall em hmem]
    simp [Processor.addModule, hany]

/-- Witness for C7: adding a second module named bank fails and leaves
the registry unchanged. -/
theorem C7_addModule_witness :
    ((pBase "cD" [mkModule "bank" "x"]).addModule (mkModule "bank" "y")).1 =
      pBase "cD" [mkModule "bank" "x"] ∧
    ((pBase "cD" [mkModule "bank" "x"]).addModule (mkModule "bank" "y")).2.isSome
      = true :=
  (C7_addModule (pBase "cD" [mkModule "bank" "x"]) (mkModule "bank" "y")).1
    ⟨mkModule "bank" "x", List.mem_singleton.2 rfl, rfl⟩

/-- C9: `New` defaults the enabled list when absent, builds the registry
from the enabled names in order, collects exactly one table schema per
enabled module (in the same order) as the migrations list, and fails when
any enabled name is unknown. -/
theorem C9_new_registry (cfg : Config) :
    (cfg.gaia.processorsEnabled = none →
      cfg.gaia.processorsEnabled.getD defaultProcessorsEnabled =
        defaultProcessorsEnabled) ∧
    ((∀ n ∈ cfg.gaia.processorsEnabled.getD defaultProcessorsEnabled,
        (processorByName n).isSome = true) →
      ∃ pr, New cfg = Except.ok pr ∧
        pr.moduleProcessors =
          (cfg.gaia.processorsEnabled.getD defaultProcessorsEnabled).filterMap
            processorByName ∧
        pr.migrations = pr.moduleProcessors.map Module.tableSchema ∧
        pr.migrations.length =
          (cfg.gaia.processorsEnabled.getD defaultProcessorsEnabled).length ∧
        pr.chainName = cfg.chainName ∧ pr.lastHeight = 0) ∧
    ((∃ n, n ∈ cfg.gaia.processorsEnabled.getD defaultProcessorsEnabled ∧
        processorByName n = none) →
      ∃ msg, New cfg = Except.error msg) := by
  refine ⟨fun h => by rw [h]; rfl, fun hall => ?_, fun hex => ?_⟩
  · have hok : New cfg = Except.ok
        { chainName := cfg.chainName
          lastHeight := 0
          migrations :=
            ((cfg.gaia.processorsEnabled.getD defaultProcessorsEnabled).filterMap
              processorByName).map Module.tableSchema
          moduleProcessors :=
            (cfg.gaia.processorsEnabled.getD defaultProcessorsEnabled).filterMap
              processorByName } := by
      unfold New
      rw [buildProcessors_ok _ hall]
    refine ⟨_, hok, rfl, rfl, ?_, rfl, rfl⟩
    simp only [List.length_map]
    exact length_filterMap_processorByName _ hall
  · rcases buildProcessors_err _ hex with ⟨msg, hmsg⟩
    refine ⟨msg, ?_⟩
    unfold New
    rw [hmsg]

/-- Witness for C9 with an absent enabled list: the default subset is
used and the three default modules are registered with one schema each. -/
theorem C9_new_registry_witness :
    ∃ pr, New { chainName := "c9", gaia := { processorsEnabled := none } } =
        Except.ok pr ∧
      pr.moduleProcessors =
        (Option.getD none defaultProcessorsEnabled).filterMap processorByName ∧
      pr.migrations = pr.moduleProcessors.map Module.tableSchema ∧
      pr.migrations.length = (Option.getD none defaultProcessorsEnabled).length ∧
      pr.chainName = "c9" ∧ pr.lastHeight = 0 :=
  (C9_new_registry { chainName := "c9", gaia := { processorsEnabled := none } }).2.1
    (by decide)

/-- C2: with per-row arity `f` and positive `limit`: when `f ≤ limit` and
`limit` is an exact multiple of `f`, the split yields consecutive groups
of at most `limit / f` rows, `ceil (len rows / (limit / f))` batches in
all; when `limit` is not a multiple of `f`, it yields one batch per row;
in both cases the statement template is preserved on every batch and the
concatenation of the batches' rows is the original row list; when
`f > limit` the operation aborts (`none`, the Go panic). -/
theorem C2_splitStatements (wb : WritebackOp) (rows : List DatabaseEntrier)
    (f limit : Nat) (hrows : wb.data = some rows) (hlim : 0 < limit) :
    (f ≤ limit → limit % f = 0 →
      ∃ bs, wb.splitStatements f limit = some bs ∧
        bs.length = (rows.length + limit / f - 1) / (limit / f) ∧
        (bs.map (fun b => b.data.getD [])).flatten = rows ∧
        ∀ b ∈ bs, b.databaseExec = wb.databaseExec ∧
          (b.data.getD []).length ≤ limit / f) ∧
    (f ≤ limit → limit % f ≠ 0 →
      ∃ bs, wb.splitStatements f limit = some bs ∧
        bs.length = rows.length ∧
        (bs.map (fun b => b.data.getD [])).flatten = rows ∧
        ∀ b ∈ bs, b.databaseExec = wb.databaseExec ∧
          (b.data.getD []).length = 1) ∧
    (limit < f → wb.splitStatements f limit = none) := by
  refine ⟨fun hle hmod => ?_, fun hle hmod => ?_, fun hgt => ?_⟩
  · have hf : 0 < f := by
      rcases Nat.eq_zero_or_pos f with h0 | hf
      · subst h0
        rw [Nat.mod_zero] at hmod
        omega
      · exact hf
    have hrps : 0 < limit / f := Nat.div_pos hle hf
    have hsplit : wb.splitStatements f limit =
        some ((chunks (limit / f) rows).map
          (fun c => { wb with data := some c })) := by
      unfold WritebackOp.splitStatements
      rw [if_neg (by omega), if_pos hmod, hrows]
      rfl
    refine ⟨_, hsplit, ?_, ?_, ?_⟩
    · rw [List.length_map, chunks_length _ _ hrps]
    · rw [List.map_map]
      have hcomp : ((fun b => WritebackOp.data b |>.getD []) ∘
          (fun c => { wb with data := some c })) =
          (id : List DatabaseEntrier → List DatabaseEntrier) := by
        funext c
        rfl
      rw [hcomp, List.map_id, chunks_flatten]
    · intro b hb
      rcases List.mem_map.1 hb with ⟨c, hc, h2⟩
      subst h2
      exact ⟨rfl, (chunks_mem_length _ _ c hrps hc).2⟩
  · have hsplit : wb.splitStatements f limit =
        some (rows.map (fun r => { wb with data := some [r] })) := by
      unfold WritebackOp.splitStatements
      rw [if_neg (by omega), if_neg hmod, hrows]
      rfl
    refine ⟨_, hsplit, by rw [List.length_map], ?_, ?_⟩
    · rw [List.map_map]
      have hcomp : ((fun b => WritebackOp.data b |>.getD []) ∘
          (fun r => { wb with data := some [r] })) =
          (fun r => [r]) := by
        funext r
        rfl
      rw [hcomp, flatten_map_singleton]
    · intro b hb
      rcases List.mem_map.1 hb with ⟨r, hrm, h2⟩
      subst h2
      exact ⟨rfl, rfl⟩
  · unfold WritebackOp.splitStatements
    rw [if_pos hgt]

/-- Four sample rows, mirroring the four AuthRow entries of the source's
splitter test. -/
def rowsFour : List DatabaseEntrier :=
  [{ chainName := "chain", payload := 1 }, { chainName := "chain", payload := 2 },
   { chainName := "chain", payload := 3 }, { chainName := "chain", payload := 4 }]

/-- The batch holding the four sample rows. -/
def wbFour : WritebackOp := { databaseExec := "statement", data := some rowsFour }

/-- Witness for C2 at the source test's first case: arity 4, limit 15
(not a multiple) yields one batch per row. -/
theorem C2_splitStatements_witness :
    ∃ bs, wbFour.splitStatements 4 15 = some bs ∧
      bs.length = rowsFour.length ∧
      (bs.map (fun b => b.data.getD [])).flatten = rowsFour ∧
      ∀ b ∈ bs, b.databaseExec = wbFour.databaseExec ∧
        (b.data.getD []).length = 1 :=
  (C2_splitStatements wbFour rowsFour 4 15 rfl (by decide)).2.1 (by decide)
    (by decide)

/-- The source test's three splitter cases, checked against the model:
limit 15 (arity 4, remainder) gives 4 batches, limit 4 gives 4 batches,
limit 40 gives 1 batch. -/
theorem splitStatements_matches_go_test :
    (wbFour.splitStatements 4 15).map List.length = some 4 ∧
    (wbFour.splitStatements 4 4).map List.length = some 4 ∧
    (wbFour.splitStatements 4 40).map List.length = some 1 := by
  decide

end Tracelistener
